import Mathlib

/-!
Verification of the tate columnar database core against its specification.

The Go sources are shallowly embedded:
* Go strings are byte sequences; we model them as `List Nat` (`GoStr`).  Go's
  string comparison is lexicographic byte order, modelled by `bytesCompare`.
* Go `float64` payloads are modelled as rationals; IEEE754 NaN and infinities
  are outside the model.  The bit-level encoding used by the column store is
  modelled by `f64bits` / `f64FromBits`.
* Go `int64` is modelled as `Int`; two's-complement wrapping is made explicit
  (`wrap64`, `toUInt64`, `fromUInt64`) where the code converts or negates.
* Fallible Go functions returning `error` are modelled with `Except String` or
  `Option`; functions that mutate a receiver and return `error` are modelled as
  returning the new state together with an optional error.
-/

namespace Tate

/-- Go strings are byte sequences; we model them as lists of bytes. -/
abbrev GoStr := List Nat

/-- Bytes of an ASCII string literal (used for the identifiers, keywords and
operator literals appearing in the embedded code; all are ASCII). -/
def ascii (s : String) : GoStr := s.data.map Char.toNat

/-- `storage.DataType`: the type tag of a column value (types.go). -/
inductive DataType where
  | nullT
  | boolT
  | int64T
  | float64T
  | stringT
  | timestampT
deriving DecidableEq

/-- The `uint8` code of a `DataType` (its declaration order in types.go). -/
def DataType.code : DataType → Nat
  | .nullT => 0
  | .boolT => 1
  | .int64T => 2
  | .float64T => 3
  | .stringT => 4
  | .timestampT => 5

/-- Go's `DataType(dt)` conversion from a raw byte.  Codes 0–5 map to the
declared constants; larger codes are unreachable from the repository's own
constructors and behave like the untyped default in every switch, so they are
mapped to `nullT`. -/
def DataType.ofCode : Nat → DataType
  | 0 => .nullT
  | 1 => .boolT
  | 2 => .int64T
  | 3 => .float64T
  | 4 => .stringT
  | 5 => .timestampT
  | _ => .nullT

/-- `storage.Value` (types.go): tagged union over NULL/BOOL/INT64/FLOAT64/
STRING/TIMESTAMP.  In the Go struct `IsNull` is a separate flag, but every
value reachable through the constructors `NewNullValue`/`NewBoolValue`/… is
either the distinguished NULL value or a well-typed non-null payload, which is
exactly this inductive.  A timestamp instant is modelled by its Unix time. -/
inductive Value where
  | nullV
  | boolV (b : Bool)
  | int64V (i : Int)
  | float64V (q : ℚ)
  | stringV (s : GoStr)
  | timestampV (t : Int)
deriving DecidableEq

/-- The `IsNull` flag of a value. -/
def Value.isNull : Value → Bool
  | .nullV => true
  | _ => false

/-- The `Type` tag of a value. -/
def Value.typeOf : Value → DataType
  | .nullV => .nullT
  | .boolV _ => .boolT
  | .int64V _ => .int64T
  | .float64V _ => .float64T
  | .stringV _ => .stringT
  | .timestampV _ => .timestampT

/-- Lexicographic byte-order comparison of Go strings, the order used by Go's
`<`/`>` on strings: -1, 0 or 1. -/
def bytesCompare : GoStr → GoStr → Int
  | [], [] => 0
  | [], _ :: _ => -1
  | _ :: _, [] => 1
  | a :: as, b :: bs => if a < b then -1 else if b < a then 1 else bytesCompare as bs

/-- `Value.Compare` (types.go): NULL equals NULL and is below every non-null
value; differing non-null types compare as 0; otherwise the per-type order.
`time.Before`/`time.After` are the strict order on instants. -/
def Value.compare : Value → Value → Int
  | .nullV, .nullV => 0
  | .nullV, _ => -1
  | _, .nullV => 1
  | .boolV a, .boolV b => if a = b then 0 else if !a && b then -1 else 1
  | .int64V a, .int64V b => if a < b then -1 else if b < a then 1 else 0
  | .float64V a, .float64V b => if a < b then -1 else if b < a then 1 else 0
  | .stringV a, .stringV b => bytesCompare a b
  | .timestampV a, .timestampV b => if a < b then -1 else if b < a then 1 else 0
  | _, _ => 0

/-- `Value.ToNumeric` (types.go): succeeds only for non-null INT64/FLOAT64,
widening to float (modelled as ℚ). -/
def Value.toNumeric : Value → Option ℚ
  | .int64V i => some (i : ℚ)
  | .float64V q => some q
  | _ => none

/-- Decimal digit bytes of a natural number (fuel-driven; the fuel `n + 1`
always suffices). -/
def natDecimalAux : Nat → Nat → GoStr
  | 0, _ => []
  | fuel + 1, n => if n < 10 then [48 + n] else natDecimalAux fuel (n / 10) ++ [48 + n % 10]

/-- Decimal digit bytes of a natural number (`fmt` `%d`). -/
def natDecimal (n : Nat) : GoStr := natDecimalAux (n + 1) n

/-- Decimal digit bytes of an integer (`fmt` `%d` on int64). -/
def intDecimal (i : Int) : GoStr :=
  if i < 0 then 45 :: natDecimal i.natAbs else natDecimal i.natAbs

/-- Fixed six-decimal rendering of a rational (`fmt` `%.6f`):
`m = round(|q| * 10^6)` with ties to even, computed on numerator and
denominator, matching Go's correct rounding (a genuine binary64 value is
never an exact tie at the seventh decimal, but the half-even rule is kept for
exactness on every rational). -/
def ratFormat6 (q : ℚ) : GoStr :=
  let a : Nat := q.num.natAbs * 1000000
  let d : Nat := q.den
  let f : Nat := a / d
  let m : Nat :=
    if 2 * (a % d) < d then f
    else if d < 2 * (a % d) then f + 1
    else if f % 2 = 0 then f else f + 1
  let frac := natDecimal (m % 1000000)
  (if q.num < 0 then [45] else []) ++ natDecimal (m / 1000000)
    ++ [46] ++ List.replicate (6 - frac.length) 48 ++ frac

/-- `Value.String` (types.go): `"NULL"` for NULL, `%t`/`%d`/`%.6f`/raw string
per type.  The RFC3339 rendering of a timestamp is modelled by the decimal
encoding of its instant (both are injective on instants; no timestamp is ever
rendered by the embedded claims). -/
def Value.string : Value → GoStr
  | .nullV => ascii "NULL"
  | .boolV b => if b then ascii "true" else ascii "false"
  | .int64V i => intDecimal i
  | .float64V q => ratFormat6 q
  | .stringV s => s
  | .timestampV t => intDecimal t

/-! ### Binary encoding (column files, part_002) -/

/-- Little-endian byte encoding of `n` on `k` bytes (Go `binary.Write` /
`binary.LittleEndian.PutUintN`; values are truncated modulo `2 ^ (8 * k)`,
matching Go's fixed-width unsigned writes). -/
def leBytes : Nat → Nat → GoStr
  | 0, _ => []
  | k + 1, n => n % 256 :: leBytes k (n / 256)

/-- The value of the first `k` little-endian bytes of a byte list
(Go `binary.LittleEndian.UintN`; callers guard that `k` bytes exist). -/
def leValue : Nat → GoStr → Nat
  | 0, _ => 0
  | _ + 1, [] => 0
  | k + 1, b :: bs => b + 256 * leValue k bs

/-- Reading `k` exact bytes from a stream (`io.ReadFull` / `binary.Read`):
fails when fewer than `k` bytes remain. -/
def readBytes (k : Nat) (bs : GoStr) : Option (GoStr × GoStr) :=
  if k ≤ bs.length then some (bs.take k, bs.drop k) else none

/-- Go's `uint64(v)` conversion of an int64 (two's complement). -/
def toUInt64 (i : Int) : Nat := (i % (2 ^ 64 : Int)).toNat

/-- Go's `int64(u)` conversion of a uint64 (two's complement). -/
def fromUInt64 (n : Nat) : Int :=
  if n < 2 ^ 63 then (n : Int) else (n : Int) - 2 ^ 64

/-- Wrapping of an integer into the int64 range (Go int64 arithmetic). -/
def wrap64 (n : Int) : Int := (n + 2 ^ 63) % 2 ^ 64 - 2 ^ 63

/-- `2 ^ k` for an integer exponent, as a rational. -/
def pow2 (k : Int) : ℚ :=
  if 0 ≤ k then ((2 ^ k.toNat : Nat) : ℚ) else (((2 ^ (-k).toNat : Nat) : ℚ))⁻¹

/-- Nearest natural number to a non-negative rational (ties upward). -/
def roundNN (q : ℚ) : Nat := (Rat.floor (q + 1 / 2)).toNat

/-- `⌊log₂ a⌋` for a positive rational, from the bit lengths of numerator and
denominator. -/
def qlog2 (a : ℚ) : Int :=
  let k : Int := (Nat.log2 a.num.toNat : Int) - (Nat.log2 a.den : Int)
  if a < pow2 k then k - 1 else k

/-- Modelled `math.Float64bits`: the IEEE754 binary64 bit pattern of a
rational, exact on representable dyadic rationals and rounding to nearest
otherwise; magnitudes beyond the binary64 range clamp to the infinity
pattern.  NaN is outside the rational model. -/
def f64bits (q : ℚ) : Nat :=
  if q = 0 then 0
  else
    let s : Nat := if q < 0 then 1 else 0
    let a : ℚ := |q|
    let e : Int := qlog2 a
    if e < -1022 then s * 2 ^ 63 + roundNN (a * pow2 1074)
    else if 1023 < e then s * 2 ^ 63 + 2047 * 2 ^ 52
    else
      let m := roundNN (a * pow2 (52 - e))
      if m < 2 ^ 53 then s * 2 ^ 63 + (e + 1023).toNat * 2 ^ 52 + (m - 2 ^ 52)
      else if e + 1 ≤ 1023 then s * 2 ^ 63 + (e + 1024).toNat * 2 ^ 52
      else s * 2 ^ 63 + 2047 * 2 ^ 52

/-- Modelled `math.Float64frombits`: the rational value of an IEEE754 binary64
bit pattern; NaN and infinity patterns, outside the rational model, map to 0. -/
def f64FromBits (n : Nat) : ℚ :=
  let s : Nat := n / 2 ^ 63 % 2
  let ef : Nat := n / 2 ^ 52 % 2 ^ 11
  let m : Nat := n % 2 ^ 52
  let sign : ℚ := if s = 1 then -1 else 1
  if ef = 0 then sign * (m : ℚ) * pow2 (-1074)
  else if ef = 2047 then 0
  else sign * ((2 ^ 52 + m : Nat) : ℚ) * pow2 ((ef : Int) - 1075)

/-- The `AsBool` accessor as used inside `AppendValue`: the Go code discards
the `ok` flag, so a mistyped or null operand yields the zero value. -/
def Value.asBoolD : Value → Bool
  | .boolV b => b
  | _ => false

/-- The `AsInt64` accessor with the `ok` flag discarded. -/
def Value.asInt64D : Value → Int
  | .int64V i => i
  | _ => 0

/-- The `AsFloat64` accessor with the `ok` flag discarded. -/
def Value.asFloat64D : Value → ℚ
  | .float64V q => q
  | _ => 0

/-- The `AsString` accessor with the `ok` flag discarded. -/
def Value.asStringD : Value → GoStr
  | .stringV s => s
  | _ => []

/-- `storage.ColumnFile` (part_002): declared type, NULL bitmap bytes, packed
value bytes and row count.  The `path` field only records where the file is
saved and is not part of the persisted payload, so it is omitted. -/
structure ColumnFile where
  dataType : DataType
  nullMask : GoStr
  data : GoStr
  rowCount : Nat
deriving DecidableEq

/-- `NewColumnFile`. -/
def ColumnFile.new (dataType : DataType) : ColumnFile :=
  { dataType := dataType, nullMask := [], data := [], rowCount := 0 }

/-- `ColumnFile.appendNullBit`: extend the bitmap byte-wise to cover the new
row (the Go loop appends zero bytes one at a time), then set the row's bit
when the value is NULL. -/
def ColumnFile.appendNullBit (cf : ColumnFile) (isNull : Bool) : ColumnFile :=
  let byteIndex := cf.rowCount / 8
  let bitIndex := cf.rowCount % 8
  let mask :=
    if cf.nullMask.length ≤ byteIndex then
      cf.nullMask ++ List.replicate (byteIndex + 1 - cf.nullMask.length) 0
    else cf.nullMask
  if isNull then
    { cf with nullMask := mask.set byteIndex (mask.getD byteIndex 0 ||| (1 <<< bitIndex)) }
  else { cf with nullMask := mask }

/-- `ColumnFile.appendZeroValue`: the full-width placeholder slot appended for
a NULL row. -/
def ColumnFile.appendZeroValue (cf : ColumnFile) : ColumnFile :=
  match cf.dataType with
  | .boolT => { cf with data := cf.data ++ [0] }
  | .int64T => { cf with data := cf.data ++ List.replicate 8 0 }
  | .float64T => { cf with data := cf.data ++ List.replicate 8 0 }
  | .stringT => { cf with data := cf.data ++ [0, 0, 0, 0] }
  | _ => cf

/-- `ColumnFile.AppendValue` (part_002): NULL appends a set bit and a
placeholder slot; otherwise the value is packed per the declared type; an
unsupported declared type (NULL or TIMESTAMP, which has no encoder) fails. -/
def ColumnFile.appendValue (cf : ColumnFile) (v : Value) : Except String ColumnFile :=
  if v.isNull then
    let cf := (cf.appendNullBit true).appendZeroValue
    .ok { cf with rowCount := cf.rowCount + 1 }
  else
    let cf := cf.appendNullBit false
    match cf.dataType with
    | .boolT =>
        .ok { cf with data := cf.data ++ [if v.asBoolD then 1 else 0],
                      rowCount := cf.rowCount + 1 }
    | .int64T =>
        .ok { cf with data := cf.data ++ leBytes 8 (toUInt64 v.asInt64D),
                      rowCount := cf.rowCount + 1 }
    | .float64T =>
        .ok { cf with data := cf.data ++ leBytes 8 (f64bits v.asFloat64D),
                      rowCount := cf.rowCount + 1 }
    | .stringT =>
        .ok { cf with data := cf.data ++ leBytes 4 v.asStringD.length ++ v.asStringD,
                      rowCount := cf.rowCount + 1 }
    | _ => .error "unsupported data type"

/-- `ColumnFile.IsNull` (part_002): out-of-range rows read as NULL; rows past
the bitmap read as non-null; otherwise the row's bit. -/
def ColumnFile.isNullAt (cf : ColumnFile) (rowIndex : Nat) : Bool :=
  if cf.rowCount ≤ rowIndex then true
  else if cf.nullMask.length ≤ rowIndex / 8 then false
  else (cf.nullMask.getD (rowIndex / 8) 0 &&& (1 <<< (rowIndex % 8))) != 0

/-- The O(row) offset scan of `GetValue`'s STRING branch: skip `count`
length-prefixed values starting at `offset`; `none` models the early `NULL`
return when a length prefix would cross the end of the data. -/
def stringOffset (data : GoStr) : Nat → Nat → Option Nat
  | offset, 0 => some offset
  | offset, count + 1 =>
    if data.length < offset + 4 then none
    else stringOffset data (offset + 4 + leValue 4 (data.drop offset)) count

/-- `ColumnFile.GetValue` (part_002): NULL for null or out-of-range rows,
otherwise the slot decoded per the declared type; any slot crossing the end of
the data decodes as NULL. -/
def ColumnFile.getValue (cf : ColumnFile) (rowIndex : Nat) : Value :=
  if cf.isNullAt rowIndex then .nullV
  else
    match cf.dataType with
    | .boolT =>
        if rowIndex < cf.data.length then .boolV (cf.data.getD rowIndex 0 != 0) else .nullV
    | .int64T =>
        if rowIndex * 8 + 8 ≤ cf.data.length then
          .int64V (fromUInt64 (leValue 8 (cf.data.drop (rowIndex * 8))))
        else .nullV
    | .float64T =>
        if rowIndex * 8 + 8 ≤ cf.data.length then
          .float64V (f64FromBits (leValue 8 (cf.data.drop (rowIndex * 8))))
        else .nullV
    | .stringT =>
        match stringOffset cf.data 0 rowIndex with
        | none => .nullV
        | some offset =>
          if cf.data.length < offset + 4 then .nullV
          else
            let strLen := leValue 4 (cf.data.drop offset)
            if offset + 4 + strLen ≤ cf.data.length then
              .stringV ((cf.data.drop (offset + 4)).take strLen)
            else .nullV
    | _ => .nullV

/-- The `"TCOL"` magic bytes. -/
def magicBytes : GoStr := ascii "TCOL"

/-- `ColumnFile.Save` (part_002): the byte stream written to disk — magic,
format version (uint16 = 1), type code (uint8), row count (uint64), bitmap
size and bytes, data size and bytes, all little-endian. -/
def ColumnFile.serialize (cf : ColumnFile) : GoStr :=
  magicBytes ++ leBytes 2 1 ++ [cf.dataType.code] ++ leBytes 8 cf.rowCount
    ++ leBytes 8 cf.nullMask.length ++ cf.nullMask
    ++ leBytes 8 cf.data.length ++ cf.data

/-- `LoadColumnFile` (part_002): reject a wrong magic, read and discard the
version, then read type, row count, bitmap and data; any truncated read
fails.  Trailing bytes are never read, as in the Go loader. -/
def deserialize (bs : GoStr) : Option ColumnFile := do
  let (magic, bs) ← readBytes 4 bs
  if magic = magicBytes then
    let (_, bs) ← readBytes 2 bs
    let (dt, bs) ← readBytes 1 bs
    let (rc, bs) ← readBytes 8 bs
    let (ms, bs) ← readBytes 8 bs
    let (mask, bs) ← readBytes (leValue 8 ms) bs
    let (ds, bs) ← readBytes 8 bs
    let (dataBytes, _) ← readBytes (leValue 8 ds) bs
    some { dataType := DataType.ofCode (dt.getD 0 0),
           nullMask := mask, data := dataBytes, rowCount := leValue 8 rc }
  else none

/-! ### Schema, table and catalog (part_002, part_003) -/

/-- `storage.ColumnDef` (part_003). -/
structure ColumnDef where
  name : GoStr
  type : DataType
  nullable : Bool
  position : Nat
deriving DecidableEq

/-- `storage.TableSchema` (part_003). -/
structure TableSchema where
  name : GoStr
  columns : List ColumnDef
deriving DecidableEq

/-- `storage.Table` (part_002): a schema plus the name-keyed map of open
column files (`Columns map[string]*ColumnFile`), modelled as an association
list with map semantics (lookup takes the entry of a key, update replaces
it).  When two schema columns share a name — nothing in the parser or
`CreateTable` rejects that — the map holds a single shared file for them,
exactly as Go's map assignments collapse duplicate keys. -/
structure Table where
  schema : List ColumnDef
  columns : List (GoStr × ColumnFile)
deriving DecidableEq

/-- Map lookup `t.Columns[name]`. -/
def lookupCF (m : List (GoStr × ColumnFile)) (name : GoStr) : Option ColumnFile :=
  (m.find? (fun p => p.1 == name)).map Prod.snd

/-- Writing back the in-place mutation of the `*ColumnFile` a key points to:
every binding of the key (a Go map has exactly one) sees the new state. -/
def updateCF (m : List (GoStr × ColumnFile)) (name : GoStr) (cf : ColumnFile) :
    List (GoStr × ColumnFile) :=
  m.map (fun p => if p.1 == name then (p.1, cf) else p)

/-- The per-column loop of `Table.Insert` (part_002): for each schema column
in order, append the positional value to the file the map holds under the
column's name — so duplicate schema names append twice to the shared file.
A name absent from the map would make Go call a method through a nil map
entry (a panic, modelled as an error; unreachable for tables built by
`CreateTable`/`LoadTable`).  Go stops at the first append failure leaving
earlier appends in place; the claims only observe the success path, on which
this `Except` traversal is identical. -/
def insertLoop : List ColumnDef → List Value → List (GoStr × ColumnFile) →
    Except String (List (GoStr × ColumnFile))
  | [], _, m => .ok m
  | _ :: _, [], _ => .error "column count mismatch"
  | cd :: cds, v :: vs, m =>
    match lookupCF m cd.name with
    | none => .error "missing column file"
    | some cf => do
        let cf2 ← cf.appendValue v
        insertLoop cds vs (updateCF m cd.name cf2)

/-- `Table.Insert` (part_002): exactly one value per schema column, then one
`AppendValue` per schema column through the name-keyed map. -/
def Table.insert (t : Table) (values : List Value) : Except String Table :=
  if values.length ≠ t.schema.length then .error "column count mismatch"
  else (insertLoop t.schema values t.columns).map (fun m => { t with columns := m })

/-- `Table.RowCount` (part_002): Go returns the row count of whichever file
the map iteration yields first (0 for an empty map); modelled by the first
entry. -/
def Table.rowCount (t : Table) : Nat :=
  match t.columns with
  | [] => 0
  | p :: _ => p.2.rowCount

/-- `storage.Catalog` (part_003): the name → schema map, modelled as an
association list; map deletion removes every binding of the key. -/
structure Catalog where
  tables : List (GoStr × TableSchema)
deriving DecidableEq

/-- Key membership in the catalog map. -/
def Catalog.containsTable (c : Catalog) (name : GoStr) : Bool :=
  c.tables.any (fun p => p.1 == name)

/-- `Catalog.RegisterTable` (part_003).  The disk write of `save` is modelled
by the `saveOk` flag; on a failed write the Go code deletes the entry it just
inserted and returns the error.  The mutated receiver is returned alongside
the optional error. -/
def Catalog.registerTable (c : Catalog) (schema : TableSchema) (saveOk : Bool) :
    Catalog × Option String :=
  if c.containsTable schema.name then (c, some "table already exists")
  else
    let c2 : Catalog := ⟨c.tables ++ [(schema.name, schema)]⟩
    if saveOk then (c2, none)
    else (⟨c2.tables.filter (fun p => !(p.1 == schema.name))⟩, some "failed to save catalog")

/-- `Catalog.DropTable` (part_003): the entry is deleted from the map before
the save is attempted, and a failed save returns the error without restoring
the entry. -/
def Catalog.dropTable (c : Catalog) (name : GoStr) (saveOk : Bool) :
    Catalog × Option String :=
  if ¬ c.containsTable name then (c, some "table does not exist")
  else
    let c2 : Catalog := ⟨c.tables.filter (fun p => !(p.1 == name))⟩
    if saveOk then (c2, none) else (c2, some "failed to save catalog")

/-! ### Executor (parser.go, package executor, lines 1435–2117) -/

/-- The executor-facing expression AST (ast.go / parser.go).  Operator and
function-name strings are kept verbatim: the parser emits `AND`/`OR` and
aggregate names upper-cased and all other operators as their literal text. -/
inductive Expression where
  | ident (name : GoStr)
  | intLit (v : Int)
  | floatLit (v : ℚ)
  | stringLit (s : GoStr)
  | boolLit (b : Bool)
  | nullLit
  | binary (op : GoStr) (l r : Expression)
  | unary (op : GoStr) (operand : Expression)
  | call (name : GoStr) (distinct : Bool) (args : List Expression)

/-- One select-list item (`parser.SelectColumn`): a wildcard, or an expression
with an optional alias (`""` = none; a wildcard item's expression is unused). -/
structure SelectItem where
  isWildcard : Bool
  expression : Expression
  aliasName : GoStr

/-- One ORDER BY clause (`parser.OrderByClause`). -/
structure OrderBySpec where
  column : GoStr
  desc : Bool
deriving DecidableEq

/-- `parser.SelectStatement`: `limit`/`offset` are optional int64 values. -/
structure SelectStatement where
  distinct : Bool
  columns : List SelectItem
  tableName : GoStr
  whereE : Option Expression
  orderBy : List OrderBySpec
  limit : Option Int
  offset : Option Int

/-- `executor.Result`: ordered output column names plus rows of values. -/
structure Result where
  columns : List GoStr
  rows : List (List Value)
deriving DecidableEq

/-- Identifier resolution in `evaluateExpression`: linear scan of the active
column-name list, returning the value at the first matching position. -/
def lookupColumn (columns : List GoStr) (row : List Value) (name : GoStr) : Option Value :=
  ((columns.zip row).find? (fun p => p.1 == name)).map Prod.snd

/-- Both operands coerced through `ToNumeric`, producing a Float64 result
(`nil` coercion failure falls through to NULL). -/
def numericOp (f : ℚ → ℚ → ℚ) (l r : Value) : Value :=
  match l.toNumeric, r.toNumeric with
  | some a, some b => .float64V (f a b)
  | _, _ => .nullV

/-- The binary-operator switch of `evaluateExpression`: `+ - * /` over
numeric coercions; division by zero and every unrecognized operator fall
through to NULL. -/
def binaryArith (op : GoStr) (left right : Value) : Value :=
  if op == ascii "+" then numericOp (fun a b => a + b) left right
  else if op == ascii "-" then numericOp (fun a b => a - b) left right
  else if op == ascii "*" then numericOp (fun a b => a * b) left right
  else if op == ascii "/" then
    match left.toNumeric, right.toNumeric with
    | some a, some b => if b ≠ 0 then .float64V (a / b) else .nullV
    | _, _ => .nullV
  else .nullV

/-- The unary-operator switch of `evaluateExpression`: `-` negates Int64
(with int64 wrapping) or Float64 preserving the type, `NOT` negates Bool;
everything else falls through to NULL. -/
def unaryValue (op : GoStr) (v : Value) : Value :=
  if op == ascii "-" then
    match v with
    | .int64V i => .int64V (wrap64 (-i))
    | .float64V q => .float64V (-q)
    | _ => .nullV
  else if op == ascii "NOT" then
    match v with
    | .boolV b => .boolV !b
    | _ => .nullV
  else .nullV

/-- `evaluateExpression` (parser.go 1882–1973).  Every Go error return carries
`NewNullValue()` as its value, so the error channel is modelled by `Except`;
only a `FunctionCall` reaching this evaluator produces an error.  A row
shorter than the column list panics in Go and is outside the model (the
executor always scans full-width rows). -/
def evaluateExpression : Expression → List GoStr → List Value → Except String Value
  | .ident name, columns, row =>
      match lookupColumn columns row name with
      | some v => .ok v
      | none => .ok .nullV
  | .intLit v, _, _ => .ok (.int64V v)
  | .floatLit v, _, _ => .ok (.float64V v)
  | .stringLit s, _, _ => .ok (.stringV s)
  | .boolLit b, _, _ => .ok (.boolV b)
  | .nullLit, _, _ => .ok .nullV
  | .binary op l r, columns, row => do
      let left ← evaluateExpression l columns row
      let right ← evaluateExpression r columns row
      pure (binaryArith op left right)
  | .unary op operand, columns, row => do
      let v ← evaluateExpression operand columns row
      pure (unaryValue op v)
  | .call _ _ _, _, _ => .error "unsupported expression type"

/-- ASCII upper-casing of a byte string (`strings.ToUpper` on the operator
literals, which are ASCII). -/
def toUpperBytes (s : GoStr) : GoStr :=
  s.map (fun b => if 97 ≤ b ∧ b ≤ 122 then b - 32 else b)

/-- `compareValues` (parser.go 2028–2051): **false whenever either side is
NULL**, otherwise the `Value.Compare` result filtered through the operator;
unrecognized operators are false. -/
def compareValues (left right : Value) (op : GoStr) : Bool :=
  if left.isNull || right.isNull then false
  else
    let cmp := left.compare right
    if op == ascii "=" then cmp == 0
    else if op == ascii "<>" || op == ascii "!=" then !(cmp == 0)
    else if op == ascii "<" then decide (cmp < 0)
    else if op == ascii ">" then decide (0 < cmp)
    else if op == ascii "<=" then decide (cmp ≤ 0)
    else if op == ascii ">=" then decide (0 ≤ cmp)
    else false

/-- `evaluateCondition` (parser.go 1975–2026): short-circuit `AND`/`OR`,
recursive `NOT`, bare boolean literals, comparison of evaluated operands for
every other binary operator, and false for every other expression shape. -/
def evaluateCondition : Expression → List GoStr → List Value → Except String Bool
  | .binary op l r, columns, row =>
      if toUpperBytes op == ascii "AND" then do
        let left ← evaluateCondition l columns row
        if left then evaluateCondition r columns row else pure false
      else if toUpperBytes op == ascii "OR" then do
        let left ← evaluateCondition l columns row
        if left then pure true else evaluateCondition r columns row
      else do
        let left ← evaluateExpression l columns row
        let right ← evaluateExpression r columns row
        pure (compareValues left right op)
  | .unary op operand, columns, row =>
      if op == ascii "NOT" then do
        let res ← evaluateCondition operand columns row
        pure !res
      else pure false
  | .boolLit b, _, _ => pure b
  | _, _, _ => pure false

/-- `rowKey` (parser.go 2068–2074): the serialized string forms of the row's
values joined by the NUL byte. -/
def rowKey (row : List Value) : GoStr :=
  List.intercalate [0] (row.map Value.string)

/-- The loop of `applyDistinct` with its `seen` key set made explicit. -/
def applyDistinctAux (seen : List GoStr) : List (List Value) → List (List Value)
  | [] => []
  | row :: rest =>
    if seen.contains (rowKey row) then applyDistinctAux seen rest
    else row :: applyDistinctAux (rowKey row :: seen) rest

/-- `applyDistinct` (parser.go 2053–2066): keep each row whose key has not
been seen. -/
def applyDistinct (rows : List (List Value)) : List (List Value) :=
  applyDistinctAux [] rows

/-- The column-index map of `applyOrderBy`: Go fills a map by iterating the
output column names, so a duplicated name resolves to its **last** index. -/
def lastIndexOf (names : List GoStr) (name : GoStr) : Option Nat :=
  ((names.enum.filter (fun p => p.2 == name)).getLast?).map Prod.fst

/-- The comparison closure passed to `sort.SliceStable` in `applyOrderBy`:
left-to-right tie-break over the requested columns, each with its own
direction; a column absent from the output is skipped. -/
def orderLess (columns : List GoStr) (orderBy : List OrderBySpec)
    (a b : List Value) : Bool :=
  match orderBy with
  | [] => false
  | ob :: rest =>
    match lastIndexOf columns ob.column with
    | none => orderLess columns rest a b
    | some idx =>
      let cmp := (a.getD idx .nullV).compare (b.getD idx .nullV)
      if cmp == 0 then orderLess columns rest a b
      else if ob.desc then decide (0 < cmp) else decide (cmp < 0)

/-- Stable insertion of an element arriving after every element of the
already-sorted list: it goes before the first strictly greater element,
after every tie. -/
def insertStable {α : Type} (lt : α → α → Bool) (x : α) : List α → List α
  | [] => [x]
  | y :: ys => if lt x y then x :: y :: ys else y :: insertStable lt x ys

/-- Stable sort by a boolean strict comparison.  `sort.SliceStable` is
modelled by stable insertion sort: both are stable, and they agree on every
strict-weak-order comparator. -/
def stableSort {α : Type} (lt : α → α → Bool) (l : List α) : List α :=
  l.foldl (fun acc x => insertStable lt x acc) []

/-- `applyOrderBy` (parser.go 2076–2099). -/
def applyOrderBy (columns : List GoStr) (orderBy : List OrderBySpec)
    (rows : List (List Value)) : List (List Value) :=
  stableSort (orderLess columns orderBy) rows

/-- Select-list resolution for one item (parser.go 1668–1698): a wildcard
expands to every schema column in order; a function call sets the aggregate
flag and is titled `FN(arg)` for an identifier argument; identifiers are
titled by their name; anything else is titled `?`; an alias overrides the
title except for wildcards and `?` items. -/
def resolveItem (schemaCols : List GoStr) (item : SelectItem) :
    List GoStr × List Expression × Bool :=
  if item.isWildcard then (schemaCols, schemaCols.map Expression.ident, false)
  else
    match item.expression with
    | .call fnName d args =>
      let title :=
        match args with
        | .ident argName :: _ => fnName ++ [40] ++ argName ++ [41]
        | _ => fnName
      ([if item.aliasName ≠ [] then item.aliasName else title], [.call fnName d args], true)
    | .ident identName =>
      ([if item.aliasName ≠ [] then item.aliasName else identName], [.ident identName], false)
    | e => ([ascii "?"], [e], false)

/-- Select-list resolution over the whole list: output column names, select
expressions and the aggregate-path flag. -/
def resolveSelect (schemaCols : List GoStr) (items : List SelectItem) :
    List GoStr × List Expression × Bool :=
  items.foldl
    (fun acc item =>
      let r := resolveItem schemaCols item
      (acc.1 ++ r.1, acc.2.1 ++ r.2.1, acc.2.2 || r.2.2))
    ([], [], false)

/-- The value actually used by callers that discard the error flag
(`val, _ := e.evaluateExpression(...)`): every error path carries
`NewNullValue()`. -/
def evalOrNull (e : Expression) (columns : List GoStr) (row : List Value) : Value :=
  match evaluateExpression e columns row with
  | .ok v => v
  | .error _ => .nullV

/-- Projection of one scanned row through the select expressions. -/
def projectRow (exprs : List Expression) (columns : List GoStr)
    (row : List Value) : List Value :=
  exprs.map (fun e => evalOrNull e columns row)

/-- The WHERE test of the scan loops: no WHERE admits every row; a condition
error or a false condition skips the row. -/
def rowQualifies (whereE : Option Expression) (columns : List GoStr)
    (row : List Value) : Bool :=
  match whereE with
  | none => true
  | some w =>
    match evaluateCondition w columns row with
    | .ok true => true
    | _ => false

/-- The per-position `aggregateState` of `executeAggregateSelect`.  The Go
zero value holds zero `Value` structs in `min`/`max`; they are never read
before `hasMin`/`hasMax` is set and are modelled as NULL. -/
structure AggState where
  count : Int
  sum : ℚ
  minV : Value
  maxV : Value
  hasMin : Bool
  hasMax : Bool
deriving DecidableEq

/-- The zero `aggregateState`. -/
def AggState.init : AggState := ⟨0, 0, .nullV, .nullV, false, false⟩

/-- One matching row's update of one select position (parser.go 1785–1828):
COUNT counts unconditionally; SUM/AVG accumulate only numeric non-null
inputs; MIN/MAX track extrema by `Value.Compare`, ignoring NULL inputs. -/
def aggStep (columns : List GoStr) (row : List Value) (e : Expression)
    (st : AggState) : AggState :=
  match e with
  | .call fnName _ args =>
    if fnName == ascii "COUNT" then { st with count := st.count + 1 }
    else if fnName == ascii "SUM" || fnName == ascii "AVG" then
      match args with
      | [] => st
      | arg :: _ =>
        match (evalOrNull arg columns row).toNumeric with
        | some num => { st with sum := st.sum + num, count := st.count + 1 }
        | none => st
    else if fnName == ascii "MIN" then
      match args with
      | [] => st
      | arg :: _ =>
        let val := evalOrNull arg columns row
        if !val.isNull && (!st.hasMin || decide (val.compare st.minV < 0)) then
          { st with minV := val, hasMin := true }
        else st
    else if fnName == ascii "MAX" then
      match args with
      | [] => st
      | arg :: _ =>
        let val := evalOrNull arg columns row
        if !val.isNull && (!st.hasMax || decide (0 < val.compare st.maxV)) then
          { st with maxV := val, hasMax := true }
        else st
    else st
  | _ => st

/-- Finalization of one select position (parser.go 1835–1876): COUNT yields
its Int64 count, SUM/AVG yield NULL on an empty accumulation, MIN/MAX yield
NULL when no non-null input was seen; non-call positions yield NULL.  A call
with an unrecognized name would leave the Go zero `Value` in the row, but the
parser emits only the five upper-cased aggregate names; modelled as NULL. -/
def aggFinal (e : Expression) (st : AggState) : Value :=
  match e with
  | .call fnName _ _ =>
    if fnName == ascii "COUNT" then .int64V st.count
    else if fnName == ascii "SUM" then
      if st.count == 0 then .nullV else .float64V st.sum
    else if fnName == ascii "AVG" then
      if st.count == 0 then .nullV else .float64V (st.sum / (st.count : ℚ))
    else if fnName == ascii "MIN" then
      if st.hasMin then st.minV else .nullV
    else if fnName == ascii "MAX" then
      if st.hasMax then st.maxV else .nullV
    else .nullV
  | _ => .nullV

/-- `executeAggregateSelect` (parser.go 1755–1880): one scan folding the
per-position states over the WHERE-qualifying rows, then exactly one output
row of finalized values. -/
def executeAggregateSelect (schemaCols : List GoStr) (tableRows : List (List Value))
    (whereE : Option Expression) (selectExpressions : List Expression)
    (selectColumns : List GoStr) : Except String Result :=
  let finalStates := tableRows.foldl
    (fun states row =>
      if rowQualifies whereE schemaCols row then
        List.zipWith (aggStep schemaCols row) selectExpressions states
      else states)
    (selectExpressions.map (fun _ => AggState.init))
  .ok { columns := selectColumns,
        rows := [List.zipWith aggFinal selectExpressions finalStates] }

/-- `executeSelect` (parser.go 1655–1753) after table resolution: the table is
given by its schema column names and its scanned rows (`Table.Scan` yields the
rows in row-index order).  The scan callback fuses WHERE filtering with
projection; then DISTINCT, ORDER BY, OFFSET (only when positive; an offset at
least the row count empties the result) and LIMIT (only when smaller than the
remaining count) are applied in that order.  A negative LIMIT makes the Go
slice expression panic and is outside the model. -/
def executeSelect (schemaCols : List GoStr) (tableRows : List (List Value))
    (stmt : SelectStatement) : Except String Result :=
  let r := resolveSelect schemaCols stmt.columns
  let selectColumns := r.1
  let selectExpressions := r.2.1
  if r.2.2 then
    executeAggregateSelect schemaCols tableRows stmt.whereE selectExpressions selectColumns
  else
    let filteredRows := tableRows.foldl
      (fun acc row =>
        if rowQualifies stmt.whereE schemaCols row then
          acc ++ [projectRow selectExpressions schemaCols row]
        else acc)
      []
    let rows1 := if stmt.distinct then applyDistinct filteredRows else filteredRows
    let rows2 :=
      if stmt.orderBy.isEmpty then rows1 else applyOrderBy selectColumns stmt.orderBy rows1
    let rows3 :=
      match stmt.offset with
      | some off =>
        if 0 < off then (if off < (rows2.length : Int) then rows2.drop off.toNat else [])
        else rows2
      | none => rows2
    let rows4 :=
      match stmt.limit with
      | some lim => if lim < (rows3.length : Int) then rows3.take lim.toNat else rows3
      | none => rows3
    .ok { columns := selectColumns, rows := rows4 }

/-! ### Shared lemmas about DISTINCT -/

/-- Rows surviving `applyDistinctAux` have keys outside the seen set. -/
theorem applyDistinctAux_key_notin_seen (rows : List (List Value)) :
    ∀ seen r, r ∈ applyDistinctAux seen rows → rowKey r ∉ seen := by
  induction rows with
  | nil => intro seen r h; simp [applyDistinctAux] at h
  | cons hd tl ih =>
    intro seen r h
    by_cases hseen : seen.contains (rowKey hd)
    · rw [applyDistinctAux, if_pos hseen] at h
      exact ih seen r h
    · rw [applyDistinctAux, if_neg hseen] at h
      rcases List.mem_cons.mp h with h1 | h2
      · subst h1
        intro hc
        exact hseen (by simpa using hc)
      · intro hc
        exact (ih _ r h2) (List.mem_cons_of_mem _ hc)

/-- Output rows of `applyDistinctAux` have pairwise distinct keys. -/
theorem applyDistinctAux_pairwise (rows : List (List Value)) :
    ∀ seen, (applyDistinctAux seen rows).Pairwise (fun a b => rowKey a ≠ rowKey b) := by
  induction rows with
  | nil => intro seen; simp [applyDistinctAux]
  | cons hd tl ih =>
    intro seen
    by_cases hseen : seen.contains (rowKey hd)
    · rw [applyDistinctAux, if_pos hseen]; exact ih seen
    · rw [applyDistinctAux, if_neg hseen]
      refine List.Pairwise.cons ?_ (ih (rowKey hd :: seen))
      intro b hb heq
      exact applyDistinctAux_key_notin_seen tl _ b hb (heq ▸ List.mem_cons_self _ _)

/-- Every input row's key is represented in the output (or was already seen). -/
theorem applyDistinctAux_covers (rows : List (List Value)) :
    ∀ seen r, r ∈ rows →
      (∃ r2 ∈ applyDistinctAux seen rows, rowKey r2 = rowKey r) ∨ rowKey r ∈ seen := by
  induction rows with
  | nil => intro seen r h; simp at h
  | cons hd tl ih =>
    intro seen r h
    by_cases hseen : seen.contains (rowKey hd)
    · rw [applyDistinctAux, if_pos hseen]
      rcases List.mem_cons.mp h with h1 | h2
      · subst h1
        right
        simpa using hseen
      · exact ih seen r h2
    · rw [applyDistinctAux, if_neg hseen]
      rcases List.mem_cons.mp h with h1 | h2
      · subst h1
        exact Or.inl ⟨r, List.mem_cons_self _ _, rfl⟩
      · rcases ih (rowKey hd :: seen) r h2 with ⟨r2, hr2, hk⟩ | hk
        · exact Or.inl ⟨r2, List.mem_cons_of_mem _ hr2, hk⟩
        · rcases List.mem_cons.mp hk with h3 | h4
          · exact Or.inl ⟨hd, List.mem_cons_self _ _, h3.symm⟩
          · exact Or.inr h4

/-- `applyDistinctAux` is idempotent at any fixed seen set. -/
theorem applyDistinctAux_idem (rows : List (List Value)) :
    ∀ seen, applyDistinctAux seen (applyDistinctAux seen rows) = applyDistinctAux seen rows := by
  induction rows with
  | nil => intro seen; simp [applyDistinctAux]
  | cons hd tl ih =>
    intro seen
    by_cases hseen : seen.contains (rowKey hd)
    · rw [applyDistinctAux, if_pos hseen]; exact ih seen
    · rw [applyDistinctAux, if_neg hseen]
      rw [applyDistinctAux, if_neg hseen]
      rw [ih (rowKey hd :: seen)]

/-- `applyDistinctAux` output is a sublist of its input: surviving rows are
never reordered. -/
theorem applyDistinctAux_sublist (rows : List (List Value)) :
    ∀ seen, (applyDistinctAux seen rows).Sublist rows := by
  induction rows with
  | nil => intro seen; simp [applyDistinctAux]
  | cons hd tl ih =>
    intro seen
    by_cases hseen : seen.contains (rowKey hd)
    · rw [applyDistinctAux, if_pos hseen]
      exact (ih seen).cons hd
    · rw [applyDistinctAux, if_neg hseen]
      exact (ih (rowKey hd :: seen)).cons₂ hd

/-! ### C2 -/

/-- NULL on either side makes every comparison false. -/
theorem compareValues_null (vl vr : Value) (op : GoStr)
    (h : vl.isNull = true ∨ vr.isNull = true) :
    compareValues vl vr op = false := by
  rcases h with h | h <;> simp [compareValues, h]

/-- A binary condition whose operator is neither AND nor OR evaluates both
sides and compares them. -/
theorem evaluateCondition_binary_cmp (op : GoStr) (l r : Expression)
    (columns : List GoStr) (row : List Value) (vl vr : Value)
    (hand : (toUpperBytes op == ascii "AND") = false)
    (hor : (toUpperBytes op == ascii "OR") = false)
    (hl : evaluateExpression l columns row = .ok vl)
    (hr : evaluateExpression r columns row = .ok vr) :
    evaluateCondition (.binary op l r) columns row = .ok (compareValues vl vr op) := by
  rw [evaluateCondition, hand, hor, hl, hr]
  rfl

/-- Identifier expressions never fail: they resolve to the bound value or to
NULL. -/
theorem evaluateExpression_ident (columns : List GoStr) (row : List Value)
    (name : GoStr) :
    evaluateExpression (.ident name) columns row
      = .ok ((lookupColumn columns row name).getD .nullV) := by
  rw [evaluateExpression]
  cases lookupColumn columns row name <;> rfl

/-- C2: for every row and every binary comparison operator (`=`, `<>`, `!=`,
`<`, `>`, `<=`, `>=`) evaluated as a WHERE condition, an operand evaluating to
NULL makes the comparison false; in particular `WHERE col = NULL` and
`WHERE col != NULL` exclude every row, including rows where `col` is NULL. -/
theorem c2_null_comparison_false
    (op : GoStr)
    (hop : op ∈ [ascii "=", ascii "<>", ascii "!=", ascii "<", ascii ">",
                 ascii "<=", ascii ">="])
    (l r : Expression) (columns : List GoStr) (row : List Value) (vl vr : Value)
    (hl : evaluateExpression l columns row = .ok vl)
    (hr : evaluateExpression r columns row = .ok vr)
    (hnull : vl.isNull = true ∨ vr.isNull = true) :
    evaluateCondition (.binary op l r) columns row = .ok false ∧
    (∀ name, evaluateCondition (.binary (ascii "=") (.ident name) .nullLit)
        columns row = .ok false) ∧
    (∀ name, evaluateCondition (.binary (ascii "!=") (.ident name) .nullLit)
        columns row = .ok false) := by
  refine ⟨?_, ?_, ?_⟩
  · have hand : (toUpperBytes op == ascii "AND") = false := by
      fin_cases hop <;> decide
    have hor : (toUpperBytes op == ascii "OR") = false := by
      fin_cases hop <;> decide
    rw [evaluateCondition_binary_cmp op l r columns row vl vr hand hor hl hr,
        compareValues_null vl vr op hnull]
  · intro name
    rw [evaluateCondition_binary_cmp (ascii "=") (.ident name) .nullLit columns row
        ((lookupColumn columns row name).getD .nullV) .nullV (by decide) (by decide)
        (evaluateExpression_ident columns row name) rfl,
      compareValues_null _ .nullV _ (Or.inr rfl)]
  · intro name
    rw [evaluateCondition_binary_cmp (ascii "!=") (.ident name) .nullLit columns row
        ((lookupColumn columns row name).getD .nullV) .nullV (by decide) (by decide)
        (evaluateExpression_ident columns row name) rfl,
      compareValues_null _ .nullV _ (Or.inr rfl)]

/-- C2 witness: the theorem applied to `WHERE id = NULL` on a concrete row. -/
theorem c2_null_comparison_false_witness :
    evaluateCondition (.binary (ascii "=") (.ident (ascii "id")) .nullLit)
      [ascii "id"] [.int64V 1] = .ok false :=
  (c2_null_comparison_false (ascii "=") (by decide)
    (.ident (ascii "id")) .nullLit [ascii "id"] [.int64V 1]
    (.int64V 1) .nullV rfl rfl (Or.inr (by decide))).1

/-! ### C7 / C8: DISTINCT semantics -/

/-- Specification-side rendering of the DISTINCT contract ("the subsequence of
the input keeping exactly the first occurrence of each duplicate key"): keep a
row exactly when no earlier row of the input has the same key; `prev`
accumulates the earlier rows. -/
def firstOccurrencesAux (prev : List (List Value)) : List (List Value) → List (List Value)
  | [] => []
  | row :: rest =>
    if prev.any (fun p => rowKey p == rowKey row) then firstOccurrencesAux (prev ++ [row]) rest
    else row :: firstOccurrencesAux (prev ++ [row]) rest

/-- The rows of a list whose key does not occur earlier in the list. -/
def firstOccurrences (rows : List (List Value)) : List (List Value) :=
  firstOccurrencesAux [] rows

/-- The executor loop agrees with the first-occurrence specification whenever
the seen set holds exactly the keys of the accumulated earlier rows. -/
theorem applyDistinctAux_eq_firstOccurrencesAux (rows : List (List Value)) :
    ∀ seen prev, (∀ k, k ∈ seen ↔ ∃ p ∈ prev, rowKey p = k) →
      applyDistinctAux seen rows = firstOccurrencesAux prev rows := by
  induction rows with
  | nil => intro seen prev _; rfl
  | cons row rest ih =>
    intro seen prev hinv
    have hguard : seen.contains (rowKey row)
        = prev.any (fun p => rowKey p == rowKey row) := by
      by_cases hmem : rowKey row ∈ seen
      · have h1 : seen.contains (rowKey row) = true := by simpa using hmem
        have h2 : prev.any (fun p => rowKey p == rowKey row) = true := by
          rcases (hinv (rowKey row)).mp hmem with ⟨p, hp, hk⟩
          rw [List.any_eq_true]
          exact ⟨p, hp, by simpa using hk⟩
        rw [h1, h2]
      · have h1 : seen.contains (rowKey row) = false := by simpa using hmem
        have h2 : prev.any (fun p => rowKey p == rowKey row) = false := by
          rw [List.any_eq_false]
          intro p hp hk
          exact hmem ((hinv (rowKey row)).mpr ⟨p, hp, by simpa using hk⟩)
        rw [h1, h2]
    rw [applyDistinctAux, firstOccurrencesAux, hguard]
    by_cases hcase : prev.any (fun p => rowKey p == rowKey row) = true
    · rw [if_pos hcase, if_pos hcase]
      apply ih
      intro k
      rw [hinv k]
      constructor
      · rintro ⟨p, hp, hk⟩
        exact ⟨p, List.mem_append_left _ hp, hk⟩
      · rintro ⟨p, hp, hk⟩
        rcases List.mem_append.mp hp with h | h
        · exact ⟨p, h, hk⟩
        · have hpr : p = row := by simpa using h
          subst hpr
          rcases List.any_eq_true.mp hcase with ⟨p2, hp2, hk2⟩
          refine ⟨p2, hp2, ?_⟩
          have hkk : rowKey p2 = rowKey p := by simpa using hk2
          rw [hkk, hk]
    · rw [if_neg hcase, if_neg hcase]
      congr 1
      apply ih
      intro k
      constructor
      · intro hk
        rcases List.mem_cons.mp hk with h | h
        · exact ⟨row, List.mem_append_right _ (List.mem_cons_self _ _), h.symm⟩
        · rcases (hinv k).mp h with ⟨p, hp, hpk⟩
          exact ⟨p, List.mem_append_left _ hp, hpk⟩
      · rintro ⟨p, hp, hpk⟩
        rcases List.mem_append.mp hp with h | h
        · exact List.mem_cons_of_mem _ ((hinv k).mpr ⟨p, h, hpk⟩)
        · have hpr : p = row := by simpa using h
          subst hpr
          exact hpk ▸ List.mem_cons_self _ _

/-- C7: DISTINCT is idempotent, never reorders surviving rows (its output is
a subsequence of its input), and equals the subsequence keeping exactly the
first occurrence of each duplicate key. -/
theorem c7_distinct_idempotent_stable :
    (∀ rows, applyDistinct (applyDistinct rows) = applyDistinct rows) ∧
    (∀ rows, (applyDistinct rows).Sublist rows) ∧
    (∀ rows, applyDistinct rows = firstOccurrences rows) := by
  refine ⟨fun rows => applyDistinctAux_idem rows [], fun rows => applyDistinctAux_sublist rows [],
    fun rows => applyDistinctAux_eq_firstOccurrencesAux rows [] [] ?_⟩
  intro k
  simp

/-- C8 counterexample: the rows `(NULL)` and `('NULL')` differ in the type of
their only value, yet DISTINCT drops the second: the serialized key does not
always separate values of different types. -/
theorem c8_counterexample :
    Value.nullV ≠ Value.stringV (ascii "NULL") ∧
    Value.typeOf Value.nullV ≠ Value.typeOf (Value.stringV (ascii "NULL")) ∧
    applyDistinct [[Value.nullV], [Value.stringV (ascii "NULL")]] = [[Value.nullV]] := by
  decide

/-- C8 (amended): DISTINCT treats rows as duplicates exactly when their
NUL-joined serialized key strings coincide — the output never holds two rows
with equal keys, and every input row's key survives; the key separates Int64 1
from Float64 1.0 (`"1"` vs `"1.000000"`), but rows whose values differ only in
ways the string form collapses (e.g. NULL vs the string `"NULL"`) are
duplicates. -/
theorem c8_distinct_key_semantics :
    (∀ rows, (applyDistinct rows).Pairwise (fun a b => rowKey a ≠ rowKey b)) ∧
    (∀ rows r, r ∈ rows → ∃ r2 ∈ applyDistinct rows, rowKey r2 = rowKey r) ∧
    rowKey [Value.int64V 1] ≠ rowKey [Value.float64V 1] ∧
    applyDistinct [[Value.int64V 1], [Value.float64V 1]]
      = [[Value.int64V 1], [Value.float64V 1]] := by
  refine ⟨fun rows => applyDistinctAux_pairwise rows [], fun rows r h => ?_, by decide, by decide⟩
  rcases applyDistinctAux_covers rows [] r h with h1 | h2
  · exact h1
  · simp at h2

/-! ### C5: the Value ordering -/

/-- C5 counterexample: `Compare` is not transitive on all values, hence not a
total order: Int64 1 and the string `"a"` compare equal, the string `"a"` and
Int64 2 compare equal, yet Int64 1 is strictly below Int64 2. -/
theorem c5_counterexample :
    Value.compare (.int64V 1) (.stringV (ascii "a")) = 0 ∧
    Value.compare (.stringV (ascii "a")) (.int64V 2) = 0 ∧
    Value.compare (.int64V 1) (.int64V 2) = -1 := by
  decide

/-! ### C6: unknown select column -/

/-- C6 (code bug): on schema `users(id INT64, name STRING)` with one stored
row, `SELECT nonexistent FROM users` does **not** fail: the current executor
resolves the unknown identifier to NULL per scanned row and returns a
successful result, contradicting the spec and the repository's own
`TestSelectNonExistentColumn`. -/
theorem c6_unknown_column_yields_nulls :
    executeSelect [ascii "id", ascii "name"]
      [[.int64V 1, .stringV (ascii "Alice")]]
      { distinct := false,
        columns := [{ isWildcard := false, expression := .ident (ascii "nonexistent"),
                      aliasName := [] }],
        tableName := ascii "users", whereE := none, orderBy := [],
        limit := none, offset := none }
      = .ok { columns := [ascii "nonexistent"], rows := [[.nullV]] } := by
  rfl

/-! ### C9: catalog mutations under a failed save -/

/-- C9 counterexample: with table `t` registered, a `DropTable` whose catalog
write fails returns an error but leaves the in-memory map with the entry
already removed — the removal is not rolled back. -/
theorem c9_counterexample :
    ((Catalog.mk [(ascii "t", ⟨ascii "t", []⟩)]).dropTable (ascii "t") false).2.isSome = true ∧
    ((Catalog.mk [(ascii "t", ⟨ascii "t", []⟩)]).dropTable (ascii "t") false).1
      ≠ Catalog.mk [(ascii "t", ⟨ascii "t", []⟩)] := by
  decide

/-- C9 (amended): on a failed catalog write both mutations return an error,
`RegisterTable` rolls its insertion back (the map is left in its pre-call
state), but `DropTable` leaves the entry deleted. -/
theorem c9_register_rolls_back_drop_does_not (c : Catalog) (schema : TableSchema)
    (name : GoStr) :
    (c.registerTable schema false).2.isSome = true ∧
    (c.registerTable schema false).1 = c ∧
    (c.dropTable name false).2.isSome = true ∧
    (c.dropTable name false).1 = Catalog.mk (c.tables.filter (fun p => !(p.1 == name))) := by
  refine ⟨?_, ?_, ?_, ?_⟩
  · rw [Catalog.registerTable]
    cases hcc : c.containsTable schema.name with
    | false => simp [hcc]
    | true => simp [hcc]
  · rw [Catalog.registerTable]
    cases hcc : c.containsTable schema.name with
    | false =>
      have hfilter : ∀ p ∈ c.tables, (!(p.1 == schema.name)) = true := by
        intro p hp
        have h2 := hcc
        rw [Catalog.containsTable, List.any_eq_false] at h2
        have h3 := h2 p hp
        simp only [Bool.not_eq_true] at h3
        simp [h3]
      simp only [hcc, Bool.false_eq_true, if_false]
      cases c with
      | mk tables =>
        simp only
        congr 1
        rw [List.filter_append, List.filter_eq_self.mpr hfilter]
        simp
    | true => simp [hcc]
  · rw [Catalog.dropTable]
    cases hcc : c.containsTable name with
    | false => simp [hcc]
    | true => simp [hcc]
  · rw [Catalog.dropTable]
    cases hcc : c.containsTable name with
    | false =>
      have hfilter : ∀ p ∈ c.tables, (!(p.1 == name)) = true := by
        intro p hp
        have h2 := hcc
        rw [Catalog.containsTable, List.any_eq_false] at h2
        have h3 := h2 p hp
        simp only [Bool.not_eq_true] at h3
        simp [h3]
      simp only [hcc, Bool.false_eq_true, not_false_iff, if_pos]
      cases c with
      | mk tables =>
        congr 1
        rw [List.filter_eq_self.mpr hfilter]
    | true => simp [hcc]

/-- `bytesCompare` is reflexive. -/
theorem bytesCompare_refl (s : GoStr) : bytesCompare s s = 0 := by
  induction s with
  | nil => rfl
  | cons a as ih => simp [bytesCompare, ih]

/-- `bytesCompare` is antisymmetric in the comparator sense. -/
theorem bytesCompare_antisym (a b : GoStr) : bytesCompare a b = -bytesCompare b a := by
  induction a generalizing b with
  | nil => cases b <;> rfl
  | cons x xs ih =>
    cases b with
    | nil => rfl
    | cons y ys =>
      rw [bytesCompare, bytesCompare]
      rcases Nat.lt_trichotomy x y with h | h | h
      · rw [if_pos h, if_neg (by omega), if_pos h]
      · subst h
        rw [if_neg (by omega), if_neg (by omega), if_neg (by omega), if_neg (by omega)]
        exact ih ys
      · rw [if_neg (by omega), if_pos h, if_pos h]
        decide

/-- `bytesCompare` is transitive on its non-positive (less-or-equal) part. -/
theorem bytesCompare_le_trans (a : GoStr) :
    ∀ b c : GoStr, bytesCompare a b ≤ 0 → bytesCompare b c ≤ 0 → bytesCompare a c ≤ 0 := by
  induction a with
  | nil => intro b c _ _; cases c <;> simp [bytesCompare]
  | cons x xs ih =>
    intro b c h1 h2
    cases b with
    | nil => simp [bytesCompare] at h1
    | cons y ys =>
      cases c with
      | nil => simp [bytesCompare] at h2
      | cons z zs =>
        rw [bytesCompare] at h1 h2 ⊢
        rcases Nat.lt_trichotomy x y with hxy | hxy | hxy
        · rcases Nat.lt_trichotomy y z with hyz | hyz | hyz
          · rw [if_pos (by omega)]; omega
          · subst hyz; rw [if_pos hxy]; omega
          · rw [if_neg (by omega), if_pos hyz] at h2; omega
        · subst hxy
          rcases Nat.lt_trichotomy x z with hyz | hyz | hyz
          · rw [if_pos hyz]; omega
          · subst hyz
            rw [if_neg (by omega), if_neg (by omega)] at h1 h2 ⊢
            exact ih ys zs h1 h2
          · rw [if_neg (by omega), if_pos hyz] at h2; omega
        · rw [if_neg (by omega), if_pos hxy] at h1; omega

/-- `bytesCompare` is negative exactly on lexicographically smaller strings. -/
theorem bytesCompare_lt_iff_lex (a : GoStr) :
    ∀ b : GoStr, bytesCompare a b < 0 ↔ List.Lex (· < ·) a b := by
  induction a with
  | nil =>
    intro b
    cases b with
    | nil =>
      constructor
      · intro h; simp [bytesCompare] at h
      · intro h; cases h
    | cons y ys =>
      constructor
      · intro _; exact List.Lex.nil
      · intro _; simp [bytesCompare]
  | cons x xs ih =>
    intro b
    cases b with
    | nil =>
      constructor
      · intro h; simp [bytesCompare] at h
      · intro h; cases h
    | cons y ys =>
      rw [bytesCompare]
      constructor
      · intro h
        rcases Nat.lt_trichotomy x y with hxy | hxy | hxy
        · exact List.Lex.rel hxy
        · subst hxy
          rw [if_neg (by omega), if_neg (by omega)] at h
          exact List.Lex.cons ((ih ys).mp h)
        · rw [if_neg (by omega), if_pos hxy] at h; omega
      · intro h
        cases h with
        | rel hr => rw [if_pos hr]; omega
        | cons hr =>
          rw [if_neg (by omega), if_neg (by omega)]
          exact (ih ys).mpr hr

/-- C5 (amended): `Value.Compare` is reflexive and antisymmetric; NULL equals
NULL and sits strictly below every non-null value; restricted to values of one
common type it is transitive, and on each type it follows the per-type order
(bool `false < true`, numeric order, lexicographic byte order on strings,
chronological order on timestamps).  It is not a total order on all values:
non-null values of different types compare as 0 (see the counterexample). -/
theorem c5_compare_homogeneous_order :
    (∀ v : Value, v.compare v = 0) ∧
    (∀ v w : Value, v.compare w = -(w.compare v)) ∧
    Value.compare .nullV .nullV = 0 ∧
    (∀ v : Value, v.isNull = false → Value.compare .nullV v = -1 ∧ v.compare .nullV = 1) ∧
    (∀ u v w : Value, u.typeOf = v.typeOf → v.typeOf = w.typeOf →
        u.compare v ≤ 0 → v.compare w ≤ 0 → u.compare w ≤ 0) ∧
    (∀ a b : Bool, (Value.boolV a).compare (.boolV b) < 0 ↔ a = false ∧ b = true) ∧
    (∀ i j : Int, (Value.int64V i).compare (.int64V j) < 0 ↔ i < j) ∧
    (∀ p q : ℚ, (Value.float64V p).compare (.float64V q) < 0 ↔ p < q) ∧
    (∀ s t : GoStr, (Value.stringV s).compare (.stringV t) < 0 ↔ List.Lex (· < ·) s t) ∧
    (∀ a b : Int, (Value.timestampV a).compare (.timestampV b) < 0 ↔ a < b) := by
  refine ⟨?_, ?_, rfl, ?_, ?_, by decide, ?_, ?_, ?_, ?_⟩
  · intro v
    cases v with
    | nullV => rfl
    | boolV a => cases a <;> rfl
    | int64V a => rw [Value.compare]; split_ifs <;> omega
    | float64V a => rw [Value.compare]; split_ifs <;> first | rfl | linarith
    | stringV s => exact bytesCompare_refl s
    | timestampV a => rw [Value.compare]; split_ifs <;> omega
  · intro v w
    cases v <;> cases w <;>
      first
      | rfl
      | (exact bytesCompare_antisym _ _)
      | (rename_i a b; revert a b; decide)
      | (simp only [Value.compare]; split_ifs <;>
          first | decide | omega | (exfalso; omega) | (exfalso; linarith))
  · intro v hv
    cases v with
    | nullV => exact absurd hv (by decide)
    | boolV a => exact ⟨rfl, rfl⟩
    | int64V a => exact ⟨rfl, rfl⟩
    | float64V a => exact ⟨rfl, rfl⟩
    | stringV s => exact ⟨rfl, rfl⟩
    | timestampV t => exact ⟨rfl, rfl⟩
  · intro u v w huv hvw h1 h2
    cases u <;> cases v <;> (try simp [Value.typeOf] at huv) <;>
      cases w <;> (try simp [Value.typeOf] at hvw) <;>
      first
      | exact h1
      | exact bytesCompare_le_trans _ _ _ h1 h2
      | (revert h1 h2; rename_i a b c; revert a b c; decide)
      | (simp only [Value.compare] at h1 h2 ⊢;
         split_ifs at h1 h2 ⊢ <;> first | omega | linarith)
  · intro i j
    rw [Value.compare]
    split_ifs with h1 h2
    · exact ⟨fun _ => h1, fun _ => by decide⟩
    · exact ⟨fun h => absurd h (by decide), fun h => absurd h (by omega)⟩
    · exact ⟨fun h => absurd h (by decide), fun h => absurd h h1⟩
  · intro p q
    rw [Value.compare]
    split_ifs with h1 h2
    · exact ⟨fun _ => h1, fun _ => by decide⟩
    · exact ⟨fun h => absurd h (by decide), fun h => absurd h (by linarith)⟩
    · exact ⟨fun h => absurd h (by decide), fun h => absurd h h1⟩
  · intro s t
    exact bytesCompare_lt_iff_lex s t
  · intro a b
    rw [Value.compare]
    split_ifs with h1 h2
    · exact ⟨fun _ => h1, fun _ => by decide⟩
    · exact ⟨fun h => absurd h (by decide), fun h => absurd h (by omega)⟩
    · exact ⟨fun h => absurd h (by decide), fun h => absurd h h1⟩

/-- C5 witness: homogeneous transitivity applied at Int64 values 1 ≤ 2 ≤ 3. -/
theorem c5_compare_homogeneous_order_witness :
    Value.compare (.int64V 1) (.int64V 3) ≤ 0 :=
  c5_compare_homogeneous_order.2.2.2.2.1 (.int64V 1) (.int64V 2) (.int64V 3)
    rfl rfl (by decide) (by decide)

/-! ### C3: aggregates over zero qualifying rows -/

/-- Scanning rows that all fail the WHERE test leaves the aggregate states
untouched. -/
theorem foldl_agg_untouched (whereE : Option Expression) (schemaCols : List GoStr)
    (exprs : List Expression) (rows : List (List Value)) (states : List AggState)
    (h : ∀ row ∈ rows, rowQualifies whereE schemaCols row = false) :
    rows.foldl
      (fun states row =>
        if rowQualifies whereE schemaCols row then
          List.zipWith (aggStep schemaCols row) exprs states
        else states) states = states := by
  induction rows generalizing states with
  | nil => rfl
  | cons r rs ih =>
    rw [List.foldl_cons, if_neg (by simp [h r (List.mem_cons_self _ _)])]
    exact ih states (fun row hr => h row (List.mem_cons_of_mem _ hr))

/-- Zipping a list against its own map collapses to a single map. -/
theorem zipWith_map_self {α β γ : Type} (f : α → β → γ) (g : α → β) :
    ∀ l : List α, List.zipWith f l (l.map g) = l.map (fun x => f x (g x)) := by
  intro l
  induction l with
  | nil => rfl
  | cons x xs ih => simp [ih]

/-- C3: for every aggregate SELECT statement (the resolved select list sets
the aggregate flag) where zero scanned rows satisfy the WHERE clause —
including an empty table — the result is exactly one row holding, per select
position, the finalization of the untouched initial state: Int64 0 at every
COUNT position and NULL at every SUM, AVG, MIN and MAX position. -/
theorem c3_aggregate_zero_rows
    (schemaCols : List GoStr) (tableRows : List (List Value)) (stmt : SelectStatement)
    (selCols : List GoStr) (selExprs : List Expression)
    (hres : resolveSelect schemaCols stmt.columns = (selCols, selExprs, true))
    (hzero : ∀ row ∈ tableRows, rowQualifies stmt.whereE schemaCols row = false) :
    executeSelect schemaCols tableRows stmt
      = .ok { columns := selCols,
              rows := [selExprs.map (fun e => aggFinal e AggState.init)] } ∧
    ∀ fnName d args, Expression.call fnName d args ∈ selExprs →
      (fnName = ascii "COUNT" →
        aggFinal (.call fnName d args) AggState.init = .int64V 0) ∧
      ((fnName = ascii "SUM" ∨ fnName = ascii "AVG" ∨
        fnName = ascii "MIN" ∨ fnName = ascii "MAX") →
        aggFinal (.call fnName d args) AggState.init = .nullV) := by
  constructor
  · rw [executeSelect, hres]
    simp only
    rw [executeAggregateSelect]
    rw [foldl_agg_untouched stmt.whereE schemaCols selExprs tableRows _ hzero]
    rw [zipWith_map_self]
    rw [if_pos trivial]
  · intro fnName d args _
    constructor
    · intro h
      subst h
      rfl
    · intro h
      rcases h with h | h | h | h <;> subst h <;> rfl

/-- C3 witness: `SELECT COUNT(x), SUM(x), AVG(x), MIN(x), MAX(x) FROM t WHERE
FALSE` over a one-row table yields one row `(0, NULL, NULL, NULL, NULL)`. -/
theorem c3_aggregate_zero_rows_witness :
    executeSelect [ascii "x"] [[.int64V 30]]
      { distinct := false,
        columns := [
          { isWildcard := false,
            expression := .call (ascii "COUNT") false [.ident [42]], aliasName := [] },
          { isWildcard := false,
            expression := .call (ascii "SUM") false [.ident (ascii "x")], aliasName := [] },
          { isWildcard := false,
            expression := .call (ascii "AVG") false [.ident (ascii "x")], aliasName := [] },
          { isWildcard := false,
            expression := .call (ascii "MIN") false [.ident (ascii "x")], aliasName := [] },
          { isWildcard := false,
            expression := .call (ascii "MAX") false [.ident (ascii "x")], aliasName := [] }],
        tableName := ascii "t", whereE := some (.boolLit false), orderBy := [],
        limit := none, offset := none }
      = .ok { columns := [ascii "COUNT(*)", ascii "SUM(x)", ascii "AVG(x)",
                          ascii "MIN(x)", ascii "MAX(x)"],
              rows := [[.int64V 0, .nullV, .nullV, .nullV, .nullV]] } := by
  rw [(c3_aggregate_zero_rows [ascii "x"] [[.int64V 30]] _ _ _ rfl (by decide)).1]
  rfl

/-! ### C10: uniform row counts across column files -/

/-- `appendNullBit` never changes the row count. -/
theorem appendNullBit_rowCount (cf : ColumnFile) (b : Bool) :
    (cf.appendNullBit b).rowCount = cf.rowCount := by
  simp only [ColumnFile.appendNullBit]
  split <;> rfl

/-- `appendZeroValue` never changes the row count. -/
theorem appendZeroValue_rowCount (cf : ColumnFile) :
    cf.appendZeroValue.rowCount = cf.rowCount := by
  rcases cf with ⟨dt, mask, bytes, rc⟩
  cases dt <;> rfl

/-- `Except.bind` on a success reduces to the continuation. -/
theorem except_bind_ok {α β : Type} (x : α) (f : α → Except String β) :
    (Except.ok x >>= f) = f x := rfl

/-- `Except.bind` on an error propagates the error. -/
theorem except_bind_error {α β : Type} (e : String) (f : α → Except String β) :
    ((Except.error e : Except String α) >>= f) = .error e := rfl

/-- A successful `AppendValue` increments the row count by exactly one. -/
theorem appendValue_rowCount (cf : ColumnFile) (v : Value) (cf2 : ColumnFile)
    (h : cf.appendValue v = .ok cf2) : cf2.rowCount = cf.rowCount + 1 := by
  simp only [ColumnFile.appendValue] at h
  split at h
  · injection h with h2
    rw [← h2]
    simp [appendZeroValue_rowCount, appendNullBit_rowCount]
  · split at h
    · injection h with h2
      rw [← h2]
      simp [appendNullBit_rowCount]
    · injection h with h2
      rw [← h2]
      simp [appendNullBit_rowCount]
    · injection h with h2
      rw [← h2]
      simp [appendNullBit_rowCount]
    · injection h with h2
      rw [← h2]
      simp [appendNullBit_rowCount]
    · exact absurd h (by simp)

/-- The invariant of the insert loop over a name-keyed map: with pairwise
distinct remaining schema names, entries whose key is still to be processed
hold `N` rows, the others `N + 1`; on success every entry ends at `N + 1`. -/
theorem insertLoop_rowCounts :
    ∀ (cols : List ColumnDef) (vals : List Value)
      (m m2 : List (GoStr × ColumnFile)) (N : Nat),
      (cols.map ColumnDef.name).Nodup →
      (∀ p ∈ m, p.2.rowCount = if p.1 ∈ cols.map ColumnDef.name then N else N + 1) →
      insertLoop cols vals m = .ok m2 →
      ∀ p ∈ m2, p.2.rowCount = N + 1 := by
  intro cols
  induction cols with
  | nil =>
    intro vals m m2 N _ hm h p hp
    simp only [insertLoop] at h
    injection h with h2
    subst h2
    have hv := hm p hp
    simpa using hv
  | cons cd cds ih =>
    intro vals m m2 N hnd hm h p hp
    cases vals with
    | nil => simp [insertLoop] at h
    | cons v vs =>
      simp only [insertLoop] at h
      cases hlk : lookupCF m cd.name with
      | none => rw [hlk] at h; exact absurd h (by simp)
      | some cf =>
        rw [hlk] at h
        have h2 : (do
            let cf2 ← cf.appendValue v
            insertLoop cds vs (updateCF m cd.name cf2)) = Except.ok m2 := h
        clear h
        cases hav : cf.appendValue v with
        | error e => rw [hav, except_bind_error] at h2; exact absurd h2 (by simp)
        | ok cf2 =>
          rw [hav, except_bind_ok] at h2
          rename' h2 => h
          have hnd2 : (cds.map ColumnDef.name).Nodup := (List.nodup_cons.mp hnd).2
          have hcdnot : cd.name ∉ cds.map ColumnDef.name := (List.nodup_cons.mp hnd).1
          have hcf : cf.rowCount = N := by
            obtain ⟨pr, hfind, heq⟩ :
                ∃ pr, m.find? (fun p => p.1 == cd.name) = some pr ∧ pr.2 = cf := by
              rw [lookupCF] at hlk
              cases hf : m.find? (fun p => p.1 == cd.name) with
              | none => rw [hf] at hlk; simp at hlk
              | some pr =>
                rw [hf] at hlk
                simp at hlk
                exact ⟨pr, rfl, hlk⟩
            have hmem := List.mem_of_find?_eq_some hfind
            have hkey : pr.1 = cd.name := by simpa using List.find?_some hfind
            have hv := hm pr hmem
            rw [hkey] at hv
            rw [if_pos (by simp)] at hv
            rw [← heq]
            exact hv
          have hcf2 : cf2.rowCount = N + 1 := by
            rw [appendValue_rowCount cf v cf2 hav, hcf]
          apply ih vs (updateCF m cd.name cf2) m2 N hnd2 ?_ h p hp
          intro q hq
          rw [updateCF] at hq
          obtain ⟨q0, hq0, hq0eq⟩ := List.mem_map.mp hq
          by_cases hk : (q0.1 == cd.name) = true
          · rw [if_pos hk] at hq0eq
            rw [← hq0eq]
            have hkey : q0.1 = cd.name := by simpa using hk
            simp only
            rw [hkey, if_neg hcdnot]
            exact hcf2
          · rw [if_neg hk] at hq0eq
            subst hq0eq
            have hv := hm q0 hq0
            have hkey : ¬ q0.1 = cd.name := by simpa using hk
            by_cases hmem2 : q0.1 ∈ cds.map ColumnDef.name
            · rw [if_pos hmem2]
              rw [if_pos (by simp [hmem2])] at hv
              exact hv
            · rw [if_neg hmem2]
              rw [if_neg (by simp [hkey, hmem2])] at hv
              exact hv

/-- C10 counterexample: duplicate schema column names are not rejected, and
the name-keyed map aliases them onto one shared file.  On the reachable table
`CREATE TABLE t (a INT64, b INT64, a INT64)` — whose map holds one file for
`a` and one for `b`, both with zero rows — a single successful insert appends
twice to the shared `a` file: the files end at 2 and 1 rows, not all at
`0 + 1`, and `RowCount` depends on which file the map iteration yields. -/
theorem c10_counterexample :
    Table.insert
      (Table.mk
        [ColumnDef.mk (ascii "a") .int64T true 0,
         ColumnDef.mk (ascii "b") .int64T true 1,
         ColumnDef.mk (ascii "a") .int64T true 2]
        [(ascii "a", ColumnFile.new .int64T), (ascii "b", ColumnFile.new .int64T)])
      [.int64V 1, .int64V 2, .int64V 3]
      = .ok (Table.mk
        [ColumnDef.mk (ascii "a") .int64T true 0,
         ColumnDef.mk (ascii "b") .int64T true 1,
         ColumnDef.mk (ascii "a") .int64T true 2]
        [(ascii "a", ColumnFile.mk .int64T [0]
            [1, 0, 0, 0, 0, 0, 0, 0, 3, 0, 0, 0, 0, 0, 0, 0] 2),
         (ascii "b", ColumnFile.mk .int64T [0] [2, 0, 0, 0, 0, 0, 0, 0] 1)]) ∧
    (∀ p ∈ [(ascii "a", ColumnFile.new .int64T), (ascii "b", ColumnFile.new .int64T)],
      p.2.rowCount = 0) ∧
    (ColumnFile.mk .int64T [0] [1, 0, 0, 0, 0, 0, 0, 0, 3, 0, 0, 0, 0, 0, 0, 0] 2).rowCount = 2 ∧
    (ColumnFile.mk .int64T [0] [2, 0, 0, 0, 0, 0, 0, 0] 1).rowCount = 1 ∧
    ¬ (∀ p ∈ [(ascii "a", ColumnFile.mk .int64T [0]
            [1, 0, 0, 0, 0, 0, 0, 0, 3, 0, 0, 0, 0, 0, 0, 0] 2),
         (ascii "b", ColumnFile.mk .int64T [0] [2, 0, 0, 0, 0, 0, 0, 0] 1)],
        p.2.rowCount = 0 + 1) := by
  refine ⟨rfl, by decide, by decide, by decide, by decide⟩

/-- C10 (amended): for a table whose schema column names are pairwise
distinct and whose column-file map is keyed by schema names, a successful
`Table.Insert` — which requires exactly one value per schema column — takes
every column file from `N` rows to `N + 1` rows, so all column files keep
equal row counts and `Table.RowCount` is independent of which file the map
iteration yields.  With duplicate schema names the conclusion fails (see the
counterexample): the shared file receives one append per duplicate. -/
theorem c10_insert_uniform_rowcounts (t : Table) (values : List Value) (t2 : Table)
    (N : Nat)
    (hnames : (t.schema.map ColumnDef.name).Nodup)
    (hcover : ∀ p ∈ t.columns, p.1 ∈ t.schema.map ColumnDef.name)
    (hcounts : ∀ p ∈ t.columns, p.2.rowCount = N)
    (hins : t.insert values = .ok t2) :
    values.length = t.schema.length ∧
    (∀ p ∈ t2.columns, p.2.rowCount = N + 1) ∧
    (∀ p ∈ t2.columns, t2.rowCount = p.2.rowCount) := by
  rw [Table.insert] at hins
  split at hins
  · exact absurd hins (by simp)
  · rename_i hlen
    have hlen2 : values.length = t.schema.length := by
      by_contra hne
      exact hlen hne
    cases hloop : insertLoop t.schema values t.columns with
    | error e =>
      rw [hloop] at hins
      exact absurd hins (by simp [Except.map])
    | ok m2 =>
      rw [hloop] at hins
      have ht2 : t2 = { t with columns := m2 } := by
        have hok : (Except.ok { t with columns := m2 } : Except String Table)
            = Except.ok t2 := by
          simpa [Except.map] using hins
        injection hok with h2
        exact h2.symm
      subst ht2
      have hall : ∀ p ∈ m2, p.2.rowCount = N + 1 := by
        apply insertLoop_rowCounts t.schema values t.columns m2 N hnames ?_ hloop
        intro p hp
        rw [if_pos (hcover p hp)]
        exact hcounts p hp
      refine ⟨hlen2, hall, ?_⟩
      intro p hp
      cases hcols : m2 with
      | nil =>
        rw [hcols] at hp
        simp at hp
      | cons q qs =>
        rw [hcols] at hp hall
        have h1 : q.2.rowCount = N + 1 := hall q (List.mem_cons_self _ _)
        have h2 : p.2.rowCount = N + 1 := hall p hp
        show q.2.rowCount = p.2.rowCount
        rw [h1, h2]

/-- C10 witness: inserting `(7)` into a one-column INT64 table with zero rows
leaves its single column file with one row, equal to `Table.RowCount`. -/
theorem c10_insert_uniform_rowcounts_witness :
    [Value.int64V 7].length = [ColumnDef.mk (ascii "id") .int64T true 0].length ∧
    (∀ p ∈ [(ascii "id", ColumnFile.mk .int64T [0] [7, 0, 0, 0, 0, 0, 0, 0] 1)],
      p.2.rowCount = 0 + 1) ∧
    (∀ p ∈ [(ascii "id", ColumnFile.mk .int64T [0] [7, 0, 0, 0, 0, 0, 0, 0] 1)],
      (Table.mk [ColumnDef.mk (ascii "id") .int64T true 0]
        [(ascii "id", ColumnFile.mk .int64T [0] [7, 0, 0, 0, 0, 0, 0, 0] 1)]).rowCount
        = p.2.rowCount) :=
  c10_insert_uniform_rowcounts
    (Table.mk [ColumnDef.mk (ascii "id") .int64T true 0]
      [(ascii "id", ColumnFile.new .int64T)])
    [Value.int64V 7]
    (Table.mk [ColumnDef.mk (ascii "id") .int64T true 0]
      [(ascii "id", ColumnFile.mk .int64T [0] [7, 0, 0, 0, 0, 0, 0, 0] 1)])
    0 (by decide) (by decide) (by decide) rfl

/-- `leBytes` writes exactly `k` bytes. -/
theorem leBytes_length (k : Nat) : ∀ n, (leBytes k n).length = k := by
  induction k with
  | zero => intro n; rfl
  | succ k ih => intro n; simp [leBytes, ih]

/-- Reading exactly the next chunk of a stream returns it with the rest. -/
theorem readBytes_exact (xs rest : GoStr) (k : Nat) (hk : xs.length = k) :
    readBytes k (xs ++ rest) = some (xs, rest) := by
  subst hk
  rw [readBytes, if_pos (by simp)]
  rw [List.take_left, List.drop_left]

/-- Reading the whole remaining stream returns it with an empty rest. -/
theorem readBytes_all (xs : GoStr) : readBytes xs.length xs = some (xs, []) := by
  rw [readBytes, if_pos le_rfl]
  simp

/-- Decoding the little-endian encoding of a value below `2 ^ (8k)` recovers
the value. -/
theorem leValue_leBytes (k : Nat) : ∀ n, n < 2 ^ (8 * k) → leValue k (leBytes k n) = n := by
  induction k with
  | zero =>
    intro n hn
    simp at hn
    simp [hn, leBytes, leValue]
  | succ k ih =>
    intro n hn
    have hpow : 2 ^ (8 * (k + 1)) = 2 ^ (8 * k) * 256 := by
      rw [show 8 * (k + 1) = 8 * k + 8 by ring, Nat.pow_add]
    have hdiv : n / 256 < 2 ^ (8 * k) := by
      rw [Nat.div_lt_iff_lt_mul (by norm_num)]
      omega
    rw [leBytes, leValue, ih (n / 256) hdiv]
    omega

/-- `Option.bind` on `some` reduces to the continuation. -/
theorem option_bind_some {α β : Type} (x : α) (f : α → Option β) :
    (some x >>= f) = f x := rfl

/-- Decoding a type code produced by `DataType.code` recovers the type. -/
theorem ofCode_code (dt : DataType) : DataType.ofCode dt.code = dt := by
  cases dt <;> rfl

/-- `LoadColumnFile` inverts `Save` byte for byte: deserializing the
serialized stream of any column file whose row count, bitmap and data sizes
fit in a uint64 (every Go-representable column file does) reproduces the
record exactly. -/
theorem deserialize_serialize (cf : ColumnFile)
    (h1 : cf.rowCount < 2 ^ 64) (h2 : cf.nullMask.length < 2 ^ 64)
    (h3 : cf.data.length < 2 ^ 64) :
    deserialize cf.serialize = some cf := by
  rcases cf with ⟨dt, mask, bytes, rc⟩
  simp only at h1 h2 h3
  rw [ColumnFile.serialize, deserialize]
  simp only [List.append_assoc]
  rw [readBytes_exact magicBytes _ 4 rfl]
  simp only [option_bind_some]
  rw [if_pos trivial]
  rw [readBytes_exact (leBytes 2 1) _ 2 (leBytes_length 2 1)]
  simp only [option_bind_some]
  rw [readBytes_exact [DataType.code dt] _ 1 rfl]
  simp only [option_bind_some]
  rw [readBytes_exact (leBytes 8 rc) _ 8 (leBytes_length 8 rc)]
  simp only [option_bind_some]
  rw [readBytes_exact (leBytes 8 mask.length) _ 8 (leBytes_length 8 mask.length)]
  simp only [option_bind_some]
  rw [leValue_leBytes 8 mask.length (by norm_num; omega)]
  rw [readBytes_exact mask _ mask.length rfl]
  simp only [option_bind_some]
  rw [readBytes_exact (leBytes 8 bytes.length) _ 8 (leBytes_length 8 bytes.length)]
  simp only [option_bind_some]
  rw [leValue_leBytes 8 bytes.length (by norm_num; omega)]
  rw [readBytes_all bytes]
  simp only [option_bind_some]
  rw [leValue_leBytes 8 rc (by norm_num; omega)]
  show some (ColumnFile.mk (DataType.ofCode dt.code) mask bytes rc)
      = some (ColumnFile.mk dt mask bytes rc)
  rw [ofCode_code]

/-- C4: saving a column file and reloading the written bytes yields a column
file with the same row count, the same NULL positions at every row index, and
the same value at every row index.  Stated for every column file whose row
count and buffer sizes fit in a uint64, which subsumes every file built by
`AppendValue`. -/
theorem c4_columnfile_roundtrip (cf : ColumnFile)
    (h1 : cf.rowCount < 2 ^ 64) (h2 : cf.nullMask.length < 2 ^ 64)
    (h3 : cf.data.length < 2 ^ 64) :
    ∃ cf2, deserialize cf.serialize = some cf2 ∧
      cf2.rowCount = cf.rowCount ∧
      (∀ i, cf2.isNullAt i = cf.isNullAt i) ∧
      (∀ i, cf2.getValue i = cf.getValue i) :=
  ⟨cf, deserialize_serialize cf h1 h2 h3, rfl, fun _ => rfl, fun _ => rfl⟩

/-- C4 witness: the round-trip applied to a two-row INT64 column holding
`7` and NULL. -/
theorem c4_columnfile_roundtrip_witness :
    ∃ cf2, deserialize (ColumnFile.serialize
        (ColumnFile.mk .int64T [2] [7, 0, 0, 0, 0, 0, 0, 0, 0, 0, 0, 0, 0, 0, 0, 0] 2))
        = some cf2 ∧
      cf2.rowCount
        = (ColumnFile.mk .int64T [2] [7, 0, 0, 0, 0, 0, 0, 0, 0, 0, 0, 0, 0, 0, 0, 0] 2).rowCount ∧
      (∀ i, cf2.isNullAt i
        = (ColumnFile.mk .int64T [2] [7, 0, 0, 0, 0, 0, 0, 0, 0, 0, 0, 0, 0, 0, 0, 0] 2).isNullAt i) ∧
      (∀ i, cf2.getValue i
        = (ColumnFile.mk .int64T [2] [7, 0, 0, 0, 0, 0, 0, 0, 0, 0, 0, 0, 0, 0, 0, 0] 2).getValue i) :=
  c4_columnfile_roundtrip
    (ColumnFile.mk .int64T [2] [7, 0, 0, 0, 0, 0, 0, 0, 0, 0, 0, 0, 0, 0, 0, 0] 2)
    (by decide) (by decide) (by decide)

/-! ### C1: the non-aggregate SELECT pipeline -/

/-- The fused scan loop of `executeSelect` equals filtering then projecting. -/
theorem foldl_filter_map {α β : Type} (p : α → Bool) (f : α → β) :
    ∀ (l : List α) (acc : List β),
      l.foldl (fun acc x => if p x then acc ++ [f x] else acc) acc
        = acc ++ (l.filter p).map f := by
  intro l
  induction l with
  | nil => intro acc; simp
  | cons x xs ih =>
    intro acc
    by_cases hx : p x
    · simp [List.filter_cons, hx, ih, List.append_assoc]
    · simp [List.filter_cons, hx, ih]

/-- The guarded OFFSET slice of `executeSelect` is a plain `drop`, clamping
to zero rows when the offset reaches the result size. -/
theorem offsetStep_eq (off : Int) (l : List (List Value)) :
    (if 0 < off then (if off < (l.length : Int) then l.drop off.toNat else []) else l)
      = l.drop off.toNat := by
  by_cases h0 : 0 < off
  · by_cases hl : off < (l.length : Int)
    · rw [if_pos h0, if_pos hl]
    · rw [if_pos h0, if_neg hl]
      exact (List.drop_eq_nil_of_le (by omega)).symm
  · rw [if_neg h0]
    have ht : off.toNat = 0 := by omega
    rw [ht, List.drop_zero]

/-- The guarded LIMIT slice of `executeSelect` is a plain `take` for
non-negative limits, a no-op when the limit reaches the remaining size. -/
theorem limitStep_eq (lim : Int) (hl : 0 ≤ lim) (l : List (List Value)) :
    (if lim < (l.length : Int) then l.take lim.toNat else l) = l.take lim.toNat := by
  by_cases h : lim < (l.length : Int)
  · rw [if_pos h]
  · rw [if_neg h]
    exact (List.take_of_length_le (by omega)).symm

/-- Specification-side pipeline, following the claim's words: WHERE filter,
projection through the select expressions, DISTINCT when requested, the
stable ORDER BY sort when requested, dropping the first OFFSET rows, then
truncating to the first LIMIT rows. -/
def selectPipelineSpec (schemaCols selCols : List GoStr) (selExprs : List Expression)
    (stmt : SelectStatement) (tableRows : List (List Value)) : List (List Value) :=
  let projected := (tableRows.filter (rowQualifies stmt.whereE schemaCols)).map
      (projectRow selExprs schemaCols)
  let afterDistinct := if stmt.distinct then applyDistinct projected else projected
  let afterOrder :=
    if stmt.orderBy.isEmpty then afterDistinct
    else applyOrderBy selCols stmt.orderBy afterDistinct
  let afterOffset := afterOrder.drop (stmt.offset.getD 0).toNat
  match stmt.limit with
  | none => afterOffset
  | some lim => afterOffset.take lim.toNat

/-- C1: every non-aggregate SELECT (the resolved select list leaves the
aggregate flag unset) with a non-negative LIMIT returns exactly the rows of
the fixed pipeline filter → project → distinct → order → offset → limit,
where OFFSET clamps to zero rows when it reaches the result size and LIMIT
is a no-op when it reaches the remaining size.  (A negative LIMIT makes the
Go slice expression panic and is outside the model.) -/
theorem c1_select_pipeline
    (schemaCols : List GoStr) (tableRows : List (List Value)) (stmt : SelectStatement)
    (selCols : List GoStr) (selExprs : List Expression)
    (hres : resolveSelect schemaCols stmt.columns = (selCols, selExprs, false))
    (hlim : ∀ l, stmt.limit = some l → 0 ≤ l) :
    executeSelect schemaCols tableRows stmt
      = .ok { columns := selCols,
              rows := selectPipelineSpec schemaCols selCols selExprs stmt tableRows } := by
  rw [executeSelect, hres]
  simp only
  rw [if_neg Bool.false_ne_true]
  rw [foldl_filter_map (rowQualifies stmt.whereE schemaCols)
      (projectRow selExprs schemaCols) tableRows []]
  rw [List.nil_append]
  rw [selectPipelineSpec]
  try simp only
  generalize (if stmt.orderBy.isEmpty = true then
      (if stmt.distinct = true then
        applyDistinct ((tableRows.filter (rowQualifies stmt.whereE schemaCols)).map
          (projectRow selExprs schemaCols))
      else ((tableRows.filter (rowQualifies stmt.whereE schemaCols)).map
          (projectRow selExprs schemaCols)))
    else applyOrderBy selCols stmt.orderBy
      (if stmt.distinct = true then
        applyDistinct ((tableRows.filter (rowQualifies stmt.whereE schemaCols)).map
          (projectRow selExprs schemaCols))
      else ((tableRows.filter (rowQualifies stmt.whereE schemaCols)).map
          (projectRow selExprs schemaCols)))) = X
  rcases hl : stmt.limit with _ | lim
  · rcases stmt.offset with _ | off
    · simp
    · simp [offsetStep_eq]
  · rcases stmt.offset with _ | off
    · simp [limitStep_eq lim (hlim lim hl)]
    · simp [offsetStep_eq, limitStep_eq lim (hlim lim hl)]
      intro h
      omega

/-- C1 witness: `SELECT DISTINCT id FROM t WHERE id > 0 ORDER BY id DESC
OFFSET 1 LIMIT 2` over rows `(1),(2),(3)` yields `(2),(1)`. -/
theorem c1_select_pipeline_witness :
    executeSelect [ascii "id"] [[.int64V 1], [.int64V 2], [.int64V 3]]
      { distinct := true,
        columns := [{ isWildcard := false, expression := .ident (ascii "id"),
                      aliasName := [] }],
        tableName := ascii "t",
        whereE := some (.binary (ascii ">") (.ident (ascii "id")) (.intLit 0)),
        orderBy := [{ column := ascii "id", desc := true }],
        limit := some 2, offset := some 1 }
      = .ok { columns := [ascii "id"], rows := [[.int64V 2], [.int64V 1]] } := by
  rw [c1_select_pipeline [ascii "id"] [[.int64V 1], [.int64V 2], [.int64V 3]]
      { distinct := true,
        columns := [{ isWildcard := false, expression := .ident (ascii "id"),
                      aliasName := [] }],
        tableName := ascii "t",
        whereE := some (.binary (ascii ">") (.ident (ascii "id")) (.intLit 0)),
        orderBy := [{ column := ascii "id", desc := true }],
        limit := some 2, offset := some 1 }
      [ascii "id"] [.ident (ascii "id")] rfl (fun l hl => by cases hl; decide)]
  rfl

end Tate
